import Mathlib

/-
Verification of the heterogeneous-container library (heterovector.hpp, adaptor.hpp).

The heterovector<T, Types...> template is a chain of nodes, one per declared
type (repeats permitted).  Each node owns one std::vector of its declared type,
and all nodes share one run-time occurrence counter (counter_), installed by
the head node's constructor and initialised to 0.  A type/occurrence-qualified
operation <U, N> walks the chain: at each node whose declared type is U it
compares the shared counter with N; on equality it resets the counter to 0 and
performs the operation on that node's backing vector, otherwise it increments
the counter and delegates to the next node; nodes of other types delegate
without touching the counter.  The empty specialisation heterovector<> throws
std::invalid_argument ("Type ... with index N=... does not exist in object.")
WITHOUT touching the counter.

The shallow embedding models the declared type list as `List tau` for an
arbitrary tag type `tau` with decidable equality (typeid comparison), the
backing vectors as `List (List V)` over a common payload type `V` (the C++
static types guarantee node i stores values of type ts[i]; none of the claims
depend on distinguishing payload types across nodes), and the shared counter
as an explicit `Nat` threaded through each call.  Dispatch failure
(std::invalid_argument from heterovector<>) is `none`.
-/

namespace HCL

/-- Concrete type tags used by the spec scenarios (int, double, string, float). -/
inductive Ty where
  | tint
  | tdouble
  | tstring
  | tfloat
deriving DecidableEq, Repr

/-- State of a heterovector: the declared TypeList, the per-node backing
containers (one per declared type, in declaration order) and the shared
occurrence counter `counter_`.  `hlen` records the structural invariant that
exactly one backing container exists per declared type. -/
structure heterovector (tau : Type) (V : Type) where
  types : List tau
  container_ : List (List V)
  counter_ : Nat
  hlen : container_.length = types.length

/-- The dispatch walk shared by every counter-dispatched `<U, N>` member
(at, front, back, push_back, pop_back, container, begin, end, ...), with the
state of the shared counter made explicit.  Translated from
heterovector::at / heterovector<>::at:
at each node, if the node's declared type equals U then (if the counter equals
N, reset the counter to 0 and act on this node; otherwise increment the
counter) and in all remaining cases delegate to the next node; the terminal
heterovector<> throws std::invalid_argument leaving the counter untouched.
Returns (declaration position acted on, or none for the throw; final counter). -/
def walk {tau : Type} [DecidableEq tau] (U : tau) (N : Nat) :
    List tau → Nat → Nat → Option Nat × Nat
  | [], _, ctr => (none, ctr)
  | t :: rest, pos, ctr =>
    if t = U then
      if ctr = N then (some pos, 0)
      else walk U N rest (pos + 1) (ctr + 1)
    else walk U N rest (pos + 1) ctr

/-- heterovector::contains<U>: true if this node's declared type is U,
otherwise delegate; heterovector<>::contains returns false. -/
def containsW {tau : Type} [DecidableEq tau] (U : tau) : List tau → Bool
  | [] => false
  | t :: rest => if t = U then true else containsW U rest

/-- The private accumulator helper heterovector::multiplicity<U>(size_t&):
delegate to the remaining nodes first, then add 1 if this node's declared type
is U; heterovector<>'s helper leaves the accumulator unchanged. -/
def multAux {tau : Type} [DecidableEq tau] (U : tau) : List tau → Nat → Nat
  | [], val => val
  | t :: rest, val =>
    let val' := multAux U rest val
    if t = U then val' + 1 else val'

/-- heterovector::multiplicity<U>(): start the accumulator at 0, let the
remaining nodes add their contributions, then add 1 if the head node's
declared type is U; heterovector<>::multiplicity returns 0. -/
def multW {tau : Type} [DecidableEq tau] (U : tau) : List tau → Nat
  | [] => 0
  | t :: rest =>
    let result := multAux U rest 0
    if t = U then result + 1 else result

/-- The private accumulator helper heterovector::size(size_t&): increment the
accumulator and delegate; heterovector<>'s helper leaves it unchanged. -/
def sizeAux {tau : Type} : List tau → Nat → Nat
  | [], val => val
  | _ :: rest, val => sizeAux rest (val + 1)

/-- heterovector::size(): the head contributes 1 and each following node
increments the accumulator; heterovector<>::size() returns 0. -/
def sizeW {tau : Type} : List tau → Nat
  | [] => 0
  | _ :: rest => sizeAux rest 1

/-- heterovector::assign<U, N>(InputIterator first, InputIterator last):
unlike the counter-dispatched members, this overload tests only the declared
type (it reads neither the shared counter nor N) and assigns to the FIRST node
of type U; heterovector<> throws std::invalid_argument.  Returns the
declaration position assigned to, or none for the throw. -/
def assignRangeWalk {tau : Type} [DecidableEq tau] (U : tau) (N : Nat) :
    List tau → Nat → Option Nat
  | [], _ => none
  | t :: rest, pos => if t = U then some pos else assignRangeWalk U N rest (pos + 1)

/-- The public heterovector constructor: one default-constructed (empty)
backing vector per declared type, shared counter allocated and set to 0. -/
def fresh {tau : Type} (V : Type) (ts : List tau) : heterovector tau V :=
  ⟨ts, ts.map (fun _ => []), 0, by simp⟩

/-- heterovector::at<U, N>(n): dispatch via the counter walk, then delegate to
std::vector::at on the resolved node (none also covers vector::at's
out_of_range pass-through).  The returned state carries the counter left by
the walk. -/
def hvAt {tau : Type} [DecidableEq tau] {V : Type} (U : tau) (N : Nat) (n : Nat)
    (h : heterovector tau V) : Option V × heterovector tau V :=
  match walk U N h.types 0 h.counter_ with
  | (some p, c) => ((h.container_.getD p []).get? n, { h with counter_ := c })
  | (none, c) => (none, { h with counter_ := c })

/-- heterovector::back<U, N>(): dispatch via the counter walk, then delegate
to std::vector::back on the resolved node (none models both the dispatch
throw and the undefined back() on an empty vector). -/
def hvBack {tau : Type} [DecidableEq tau] {V : Type} (U : tau) (N : Nat)
    (h : heterovector tau V) : Option V × heterovector tau V :=
  match walk U N h.types 0 h.counter_ with
  | (some p, c) => ((h.container_.getD p []).getLast?, { h with counter_ := c })
  | (none, c) => (none, { h with counter_ := c })

/-- heterovector::push_back<U, N>(val): dispatch via the counter walk, then
delegate to std::vector::push_back on the resolved node.  The Bool records
success (false = std::invalid_argument). -/
def hvPushBack {tau : Type} [DecidableEq tau] {V : Type} (U : tau) (N : Nat) (v : V)
    (h : heterovector tau V) : Bool × heterovector tau V :=
  match walk U N h.types 0 h.counter_ with
  | (some p, c) =>
    (true, ⟨h.types, h.container_.set p ((h.container_.getD p []) ++ [v]), c,
      by rw [List.length_set]; exact h.hlen⟩)
  | (none, c) => (false, { h with counter_ := c })

/-- heterovector::container<U, N>(): dispatch via the counter walk and return
a handle to the resolved node, identified by its declaration position. -/
def hvContainer {tau : Type} [DecidableEq tau] {V : Type} (U : tau) (N : Nat)
    (h : heterovector tau V) : Option Nat × heterovector tau V :=
  match walk U N h.types 0 h.counter_ with
  | (some p, c) => (some p, { h with counter_ := c })
  | (none, c) => (none, { h with counter_ := c })

/-- heterovector::contains<U>() as a full state transformer: the source method
never reads or writes the shared counter and has no throwing path, so the
state passes through unchanged and the result is always `some`. -/
def hvContains {tau : Type} [DecidableEq tau] {V : Type} (U : tau)
    (h : heterovector tau V) : Option Bool × heterovector tau V :=
  (some (containsW U h.types), h)

/-- heterovector::multiplicity<U>() as a full state transformer: the source
method never reads or writes the shared counter and has no throwing path. -/
def hvMultiplicity {tau : Type} [DecidableEq tau] {V : Type} (U : tau)
    (h : heterovector tau V) : Option Nat × heterovector tau V :=
  (some (multW U h.types), h)

/-- heterovector::size() (argumentless) as a state observer. -/
def hvSize {tau : Type} {V : Type} (h : heterovector tau V) : Nat :=
  sizeW h.types

/-- Run a sequence of type/occurrence-qualified queries (via
heterovector::container<U, N>()) left to right; none as soon as one throws. -/
def runQueries {tau : Type} [DecidableEq tau] {V : Type} :
    List (tau × Nat) → heterovector tau V → Option (heterovector tau V)
  | [], h => some h
  | (U, N) :: qs, h =>
    match hvContainer U N h with
    | (some _, h') => runQueries qs h'
    | (none, _) => none

/-! Helper lemmas about the dispatch walk. -/

/-- The declaration positions (relative to `pos`) of the nodes declaring
type U, in declaration order. -/
def matchIdxs {tau : Type} [DecidableEq tau] (U : tau) : List tau → Nat → List Nat
  | [], _ => []
  | t :: rest, pos =>
    if t = U then pos :: matchIdxs U rest (pos + 1) else matchIdxs U rest (pos + 1)

theorem matchIdxs_len_shift {tau : Type} [DecidableEq tau] (U : tau) :
    ∀ (ts : List tau) (p q : Nat), (matchIdxs U ts p).length = (matchIdxs U ts q).length := by
  intro ts
  induction ts with
  | nil => intro p q; rfl
  | cons t rest ih =>
    intro p q
    by_cases ht : t = U <;> simp [matchIdxs, ht, ih (p + 1) (q + 1)]

theorem multAux_eq_add {tau : Type} [DecidableEq tau] (U : tau) :
    ∀ (ts : List tau) (val : Nat), multAux U ts val = val + (matchIdxs U ts 0).length := by
  intro ts
  induction ts with
  | nil => intro val; simp [multAux, matchIdxs]
  | cons t rest ih =>
    intro val
    by_cases ht : t = U <;>
      simp [multAux, matchIdxs, ht, ih, matchIdxs_len_shift U rest 1 0] <;> omega

theorem multW_eq_len {tau : Type} [DecidableEq tau] (U : tau) (ts : List tau) :
    multW U ts = (matchIdxs U ts 0).length := by
  cases ts with
  | nil => rfl
  | cons t rest =>
    by_cases ht : t = U <;>
      simp [multW, matchIdxs, ht, multAux_eq_add, matchIdxs_len_shift U rest 1 0]

theorem matchIdxs_cons_pos {tau : Type} [DecidableEq tau] {U t : tau} (rest : List tau)
    (pos : Nat) (ht : t = U) :
    matchIdxs U (t :: rest) pos = pos :: matchIdxs U rest (pos + 1) := by
  simp [matchIdxs, ht]

theorem matchIdxs_cons_neg {tau : Type} [DecidableEq tau] {U t : tau} (rest : List tau)
    (pos : Nat) (ht : ¬ t = U) :
    matchIdxs U (t :: rest) pos = matchIdxs U rest (pos + 1) := by
  simp [matchIdxs, ht]

theorem matchIdxs_bounds {tau : Type} [DecidableEq tau] (U : tau) :
    ∀ (ts : List tau) (pos q : Nat), q ∈ matchIdxs U ts pos → pos ≤ q ∧ q < pos + ts.length := by
  intro ts
  induction ts with
  | nil => intro pos q hq; simp [matchIdxs] at hq
  | cons t rest ih =>
    intro pos q hq
    by_cases ht : t = U
    · rw [matchIdxs_cons_pos rest pos ht] at hq
      simp only [List.mem_cons] at hq
      rcases hq with hq | hq
      · subst hq; simp only [List.length_cons]; omega
      · have h2 := ih (pos + 1) q hq
        simp only [List.length_cons]
        omega
    · rw [matchIdxs_cons_neg rest pos ht] at hq
      have h2 := ih (pos + 1) q hq
      simp only [List.length_cons]
      omega

/-- Any success of the dispatch walk leaves the shared counter at 0: the only
branch producing `some` executes the explicit reset before the operation. -/
theorem walk_success_counter {tau : Type} [DecidableEq tau] (U : tau) (N : Nat) :
    ∀ (ts : List tau) (pos ctr p c : Nat), walk U N ts pos ctr = (some p, c) → c = 0 := by
  intro ts
  induction ts with
  | nil => intro pos ctr p c hw; simp [walk] at hw
  | cons t rest ih =>
    intro pos ctr p c hw
    by_cases ht : t = U
    · by_cases hc : ctr = N
      · simp [walk, ht, hc] at hw; exact hw.2.symm
      · simp [walk, ht, hc] at hw; exact ih (pos + 1) (ctr + 1) p c hw
    · simp [walk, ht] at hw; exact ih (pos + 1) ctr p c hw

/-- When `N - ctr` is a valid occurrence among the remaining matches, the walk
succeeds exactly at the corresponding declaration position and resets the
counter. -/
theorem walk_found {tau : Type} [DecidableEq tau] (U : tau) (N : Nat) :
    ∀ (ts : List tau) (pos ctr p : Nat), ctr ≤ N →
      (matchIdxs U ts pos).get? (N - ctr) = some p →
      walk U N ts pos ctr = (some p, 0) := by
  intro ts
  induction ts with
  | nil => intro pos ctr p _ hget; simp [matchIdxs] at hget
  | cons t rest ih =>
    intro pos ctr p hle hget
    by_cases ht : t = U
    · by_cases hc : ctr = N
      · subst hc
        rw [matchIdxs_cons_pos rest pos ht, Nat.sub_self, List.get?_cons_zero] at hget
        simp only [Option.some_inj] at hget
        simp [walk, ht, hget]
      · have hlt : ctr < N := Nat.lt_of_le_of_ne hle hc
        have hsub : N - ctr = (N - (ctr + 1)) + 1 := by omega
        rw [hsub, matchIdxs_cons_pos rest pos ht, List.get?_cons_succ] at hget
        simp only [walk, if_pos ht, if_neg hc]
        exact ih (pos + 1) (ctr + 1) p hlt hget
    · rw [matchIdxs_cons_neg rest pos ht] at hget
      simp only [walk, if_neg ht]
      exact ih (pos + 1) ctr p hle hget

/-- When `N - ctr` exceeds the remaining matches, the walk reaches
heterovector<> and fails, leaving the counter incremented once per matching
node it passed — the terminal throw performs no reset. -/
theorem walk_notfound {tau : Type} [DecidableEq tau] (U : tau) (N : Nat) :
    ∀ (ts : List tau) (pos ctr : Nat), ctr ≤ N →
      (matchIdxs U ts pos).get? (N - ctr) = none →
      walk U N ts pos ctr = (none, ctr + (matchIdxs U ts pos).length) := by
  intro ts
  induction ts with
  | nil => intro pos ctr _ _; simp [walk, matchIdxs]
  | cons t rest ih =>
    intro pos ctr hle hget
    by_cases ht : t = U
    · by_cases hc : ctr = N
      · subst hc
        rw [matchIdxs_cons_pos rest pos ht, Nat.sub_self, List.get?_cons_zero] at hget
        exact absurd hget (by simp)
      · have hlt : ctr < N := Nat.lt_of_le_of_ne hle hc
        have hsub : N - ctr = (N - (ctr + 1)) + 1 := by omega
        rw [hsub, matchIdxs_cons_pos rest pos ht, List.get?_cons_succ] at hget
        simp only [walk, if_pos ht, if_neg hc]
        rw [ih (pos + 1) (ctr + 1) hlt hget, matchIdxs_cons_pos rest pos ht]
        simp only [List.length_cons, Prod.mk.injEq]
        exact ⟨trivial, by omega⟩
    · rw [matchIdxs_cons_neg rest pos ht] at hget
      simp only [walk, if_neg ht]
      rw [ih (pos + 1) ctr hle hget, matchIdxs_cons_neg rest pos ht]

/-- contains is the OR-reduction and multiplicity the SUM-reduction over
the same chain, so presence is equivalent to positive multiplicity. -/
theorem containsW_iff_pos {tau : Type} [DecidableEq tau] (U : tau) :
    ∀ ts : List tau, containsW U ts = true ↔ 0 < multW U ts := by
  intro ts
  induction ts with
  | nil => simp [containsW, multW]
  | cons t rest ih =>
    by_cases ht : t = U
    · simp [containsW, ht, multW_eq_len, matchIdxs]
    · simp only [containsW, if_neg ht, ih, multW_eq_len, matchIdxs, if_neg ht]
      rw [matchIdxs_len_shift U rest 1 0]

theorem sizeAux_eq {tau : Type} :
    ∀ (ts : List tau) (val : Nat), sizeAux ts val = val + ts.length := by
  intro ts
  induction ts with
  | nil => intro val; simp [sizeAux]
  | cons t rest ih => intro val; simp [sizeAux, ih]; omega

/-- The result handle of `container<U, N>` is determined by the walk alone. -/
theorem hvContainer_fst {tau : Type} [DecidableEq tau] {V : Type} (U : tau) (N : Nat)
    (h : heterovector tau V) :
    (hvContainer U N h).1 = (walk U N h.types 0 h.counter_).1 := by
  unfold hvContainer
  rcases hw : walk U N h.types 0 h.counter_ with ⟨op, c⟩
  cases op <;> simp [hw]

/-- Types are fixed for the lifetime of the aggregate and any successful query
resets the counter to 0; a run of successful queries therefore preserves
"types unchanged and counter 0 (unless nothing ran)". -/
theorem runQueries_inv {tau : Type} [DecidableEq tau] {V : Type} :
    ∀ (qs : List (tau × Nat)) (h h' : heterovector tau V),
      runQueries qs h = some h' →
      h'.types = h.types ∧ (h'.counter_ = 0 ∨ h' = h) := by
  intro qs
  induction qs with
  | nil =>
    intro h h' hrun
    simp [runQueries] at hrun
    exact ⟨by rw [hrun], Or.inr hrun.symm⟩
  | cons q qs ih =>
    intro h h' hrun
    rcases q with ⟨U, N⟩
    unfold runQueries at hrun
    unfold hvContainer at hrun
    rcases hw : walk U N h.types 0 h.counter_ with ⟨op, c⟩
    rw [hw] at hrun
    cases op with
    | none => simp at hrun
    | some p =>
      simp at hrun
      have hc0 : c = 0 := walk_success_counter U N h.types 0 h.counter_ p c hw
      have := ih { h with counter_ := c } h' hrun
      refine ⟨this.1, Or.inl ?_⟩
      rcases this.2 with h0 | heq
      · exact h0
      · rw [heq]; exact hc0

/-! Claims about the heterovector dispatch. -/

/-- C1: multiplicity counts declarations and the counter-dispatched operations
(at, push_back, back, ...) resolve `(U, N)` to the (N+1)-th declaration of U,
failing with std::invalid_argument for N >= k — but the claim quantifies over
EVERY type/occurrence-qualified operation, and the iterator-range overload
`assign<U, N>(InputIterator, InputIterator)` ignores both the shared counter
and N: on `heterovector<int, int>` with N = 1 it targets declaration position
0 instead of 1, and with N = 5 >= multiplicity it succeeds instead of
throwing, contradicting its own documentation ("Assigns new contents to the
Nth container of type U"). -/
theorem c1_assign_range_ignores_occurrence :
    multW Ty.tint [Ty.tint, Ty.tint] = 2 ∧
    (walk Ty.tint 1 [Ty.tint, Ty.tint] 0 0).1 = some 1 ∧
    (walk Ty.tint 5 [Ty.tint, Ty.tint] 0 0).1 = none ∧
    assignRangeWalk Ty.tint 1 [Ty.tint, Ty.tint] 0 = some 0 ∧
    assignRangeWalk Ty.tint 5 [Ty.tint, Ty.tint] 0 = some 0 := by
  decide

/-- C2 counterexample: on `heterovector<int>` freshly constructed (counter 0),
the failing call `at<int, 1>(0)` exits by the heterovector<> throw with the
shared counter left at 1, not restored to 0 — counter state leaks into the
next call, contrary to the claim. -/
theorem c2_counter_leak_cex :
    (hvAt Ty.tint 1 0 (fresh Unit [Ty.tint])).2.counter_ = 1 ∧
    ¬ (hvAt Ty.tint 1 0 (fresh Unit [Ty.tint])).2.counter_ = 0 := by
  constructor <;> decide

/-- C2 amended: the shared counter is restored to 0 on every SUCCESSFUL exit
path of a dispatch; on the failure path (the walk reaches heterovector<> and
throws) the counter is NOT reset — starting from a zero counter it is left at
multiplicity<U>(), the number of matching nodes passed, and each operation's
post-state counter is exactly the walk's. -/
theorem c2_counter_reset_amended (tau : Type) [DecidableEq tau] (V : Type) (U : tau)
    (N : Nat) (ts : List tau) :
    (∀ pos ctr p c, walk U N ts pos ctr = (some p, c) → c = 0) ∧
    (multW U ts ≤ N → walk U N ts 0 0 = (none, multW U ts)) ∧
    (∀ (h : heterovector tau V) (n : Nat),
      (hvAt U N n h).2.counter_ = (walk U N h.types 0 h.counter_).2) := by
  refine ⟨walk_success_counter U N ts, ?_, ?_⟩
  · intro hle
    have hget : (matchIdxs U ts 0).get? (N - 0) = none := by
      rw [List.get?_eq_none]
      rw [multW_eq_len] at hle
      omega
    have := walk_notfound U N ts 0 0 (Nat.zero_le N) hget
    rw [this, multW_eq_len]
    simp
  · intro h n
    unfold hvAt
    rcases hw : walk U N h.types 0 h.counter_ with ⟨op, c⟩
    cases op <;> simp [hw]

theorem c2_counter_reset_amended_witness :
    walk Ty.tint 1 [Ty.tint] 0 0 = (none, multW Ty.tint [Ty.tint]) ∧
    (0 : Nat) = 0 :=
  ⟨(c2_counter_reset_amended Ty Unit Ty.tint 1 [Ty.tint]).2.1 (by decide),
   (c2_counter_reset_amended Ty Unit Ty.tint 0 [Ty.tint]).1 0 0 0 0 (by decide)⟩

/-- C3: after construction the shared counter is 0, and it is 0 again after
any sequence of successful type/occurrence-qualified calls; consequently a
fixed (U, N) query resolves to the same node handle no matter how many prior
successful queries were issued. -/
theorem c3_counter_zero_stable (tau : Type) [DecidableEq tau] (V : Type)
    (ts : List tau) (qs : List (tau × Nat)) (h' : heterovector tau V) (U : tau) (N : Nat)
    (hrun : runQueries qs (fresh V ts) = some h') :
    h'.counter_ = 0 ∧ (hvContainer U N h').1 = (hvContainer U N (fresh V ts)).1 := by
  have hinv := runQueries_inv qs (fresh V ts) h' hrun
  have hc : h'.counter_ = 0 := by
    rcases hinv.2 with h0 | heq
    · exact h0
    · rw [heq]; rfl
  refine ⟨hc, ?_⟩
  rw [hvContainer_fst, hvContainer_fst, hinv.1, hc]
  rfl

theorem c3_counter_zero_stable_witness :
    (fresh Unit [Ty.tint] : heterovector Ty Unit).counter_ = 0 ∧
    (hvContainer Ty.tint 0 (fresh Unit [Ty.tint] : heterovector Ty Unit)).1 =
      (hvContainer Ty.tint 0 (fresh Unit [Ty.tint])).1 :=
  c3_counter_zero_stable Ty Unit [Ty.tint] [(Ty.tint, 0)] (fresh Unit [Ty.tint])
    Ty.tint 0 rfl

/-- C4: contains<U>() is true exactly when multiplicity<U>() is positive, for
every declared TypeList and every queried type. -/
theorem c4_contains_iff_multiplicity (tau : Type) [DecidableEq tau] (U : tau)
    (ts : List tau) : containsW U ts = true ↔ 0 < multW U ts :=
  containsW_iff_pos U ts

theorem c4_contains_iff_multiplicity_witness :
    containsW Ty.tint [Ty.tint, Ty.tdouble] = true ↔
      0 < multW Ty.tint [Ty.tint, Ty.tdouble] :=
  c4_contains_iff_multiplicity Ty Ty.tint [Ty.tint, Ty.tdouble]

/-- C5: contains<U>() and multiplicity<U>() leave the whole aggregate state —
in particular the shared occurrence counter — untouched, never fail (the
result is always present, never the invalid-argument outcome), and absence
yields false respectively 0 (the two "absent" answers coincide). -/
theorem c5_queries_pure_total (tau : Type) [DecidableEq tau] (V : Type) (U : tau)
    (h : heterovector tau V) :
    (hvContains U h).2 = h ∧ (hvMultiplicity U h).2 = h ∧
    (hvContains U h).1.isSome = true ∧ (hvMultiplicity U h).1.isSome = true ∧
    ((hvContains U h).1 = some false ↔ (hvMultiplicity U h).1 = some 0) := by
  refine ⟨rfl, rfl, rfl, rfl, ?_⟩
  simp only [hvContains, hvMultiplicity, Option.some_inj]
  have hiff := containsW_iff_pos U h.types
  constructor
  · intro hfalse
    by_contra hne
    have : 0 < multW U h.types := Nat.pos_of_ne_zero hne
    rw [← hiff] at this
    rw [hfalse] at this
    exact Bool.false_ne_true this
  · intro hzero
    cases hcw : containsW U h.types with
    | false => rfl
    | true => rw [hiff, hzero] at hcw; exact absurd hcw (by simp)

theorem c5_queries_pure_total_witness :
    (hvContains Ty.tfloat (fresh Unit [Ty.tint])).2 = fresh Unit [Ty.tint] ∧
    (hvMultiplicity Ty.tfloat (fresh Unit [Ty.tint])).2 = fresh Unit [Ty.tint] ∧
    (hvContains Ty.tfloat (fresh Unit [Ty.tint])).1.isSome = true ∧
    (hvMultiplicity Ty.tfloat (fresh Unit [Ty.tint])).1.isSome = true ∧
    ((hvContains Ty.tfloat (fresh Unit [Ty.tint])).1 = some false ↔
      (hvMultiplicity Ty.tfloat (fresh Unit [Ty.tint])).1 = some 0) :=
  c5_queries_pure_total Ty Unit Ty.tfloat (fresh Unit [Ty.tint])

/-- C6: for a valid (U, N) — N below multiplicity<U>() — starting from the
0-counter state, push_back<U, N>(v) succeeds and a following back<U, N>()
returns v. -/
theorem c6_push_back_back_roundtrip (tau : Type) [DecidableEq tau] (V : Type)
    (U : tau) (N : Nat) (v : V) (h : heterovector tau V)
    (h0 : h.counter_ = 0) (hN : N < multW U h.types) :
    (hvPushBack U N v h).1 = true ∧
    (hvBack U N (hvPushBack U N v h).2).1 = some v := by
  rw [multW_eq_len] at hN
  have hget : (matchIdxs U h.types 0).get? N =
      some ((matchIdxs U h.types 0).get ⟨N, hN⟩) := List.get?_eq_get hN
  set p := (matchIdxs U h.types 0).get ⟨N, hN⟩ with hp
  have hmem : p ∈ matchIdxs U h.types 0 := List.get?_mem hget
  have hplt : p < h.types.length := by
    have := matchIdxs_bounds U h.types 0 p hmem
    omega
  have hw0 : walk U N h.types 0 0 = (some p, 0) :=
    walk_found U N h.types 0 0 p (Nat.zero_le N) (by simpa using hget)
  have hw : walk U N h.types 0 h.counter_ = (some p, 0) := by rw [h0]; exact hw0
  unfold hvPushBack
  rw [hw]
  refine ⟨rfl, ?_⟩
  unfold hvBack
  simp only
  rw [hw0]
  simp only
  have hpc : p < h.container_.length := by rw [h.hlen]; exact hplt
  have hset : ((h.container_.set p (h.container_.getD p [] ++ [v])).getD p []) =
      h.container_.getD p [] ++ [v] := by
    rw [List.getD_eq_get?, List.get?_set_eq, List.get?_eq_get hpc]
    rfl
  rw [hset]
  exact List.getLast?_concat _

theorem c6_push_back_back_roundtrip_witness :
    (hvPushBack Ty.tint 0 (7 : Int) (fresh Int [Ty.tint])).1 = true ∧
    (hvBack Ty.tint 0 (hvPushBack Ty.tint 0 (7 : Int) (fresh Int [Ty.tint])).2).1 =
      some 7 :=
  c6_push_back_back_roundtrip Ty Int Ty.tint 0 7 (fresh Int [Ty.tint]) rfl (by decide)

/-- C10: the argumentless size() counts the declared backing containers — the
length of the TypeList, repeats included — whatever the containers hold and
whatever the counter state is. -/
theorem c10_size_counts_nodes (tau : Type) (V : Type) (h : heterovector tau V) :
    hvSize h = h.types.length := by
  unfold hvSize
  cases hts : h.types with
  | nil => rfl
  | cons t rest => simp [sizeW, sizeAux_eq]; omega

/-!
The type-erased adaptor (adaptor.hpp).

`adaptor<container_type>` wraps a sequence of type-erased values (boost::any)
and offers type-filtered iteration: a `type_iterator<container_t, native_t>`
holds an index into the underlying sequence; its constructor scans forward
from the given offset to the first element whose erased payload currently
holds `native_t` (an assertion guards offset <= size), `operator++` advances
the index once and rescans, `operator+` advances once and then scans counting
matches until the count reaches the argument, and iterator equality compares
indices.  `begin` is the iterator built at offset 0 and `end` the iterator
built at offset size() (whose scan loop runs zero times, so its index is
size()).

The sequence is modelled as `List Erased` where `Erased` carries the
run-time type tag (the `type()` query of the erased payload) and the payload;
the float/double payloads are identified by opaque indices since no claim
computes on them.
-/

/-- A type-erased element (boost::any): the constructor is the currently held
native type, the argument its payload.  Float/double payloads are represented
by opaque identifiers (the claims only move them around). -/
inductive Erased where
  | efl (id : Nat)
  | edb (id : Nat)
  | eint (z : Int)
  | estr (s : String)
deriving DecidableEq, Repr

/-- The run-time type query `itr->type()` of an erased element. -/
def tyOf : Erased → Ty
  | .efl _ => Ty.tfloat
  | .edb _ => Ty.tdouble
  | .eint _ => Ty.tint
  | .estr _ => Ty.tstring

/-- Whether the element at sequence index `i` currently holds type `A`
(the loop test `itr->type().name() == typeid(native_t).name()`); false past
the end. -/
def isMatch (s : List Erased) (A : Ty) (i : Nat) : Bool :=
  match s.get? i with
  | some e => decide (tyOf e = A)
  | none => false

/-- The extraction boost::get<std::string> applied to the erased element at sequence index
`i` (the dereference `*itr` of a string-typed iterator); none if the slot is
absent or holds another type. -/
def derefString (s : List Erased) (i : Nat) : Option String :=
  match s.get? i with
  | some (.estr v) => some v
  | _ => none

/-- The scan loop shared by the type_iterator constructor, operator++ and
operator+ restarts: the number of steps from the head of `l` to the first
element holding `A`, or `l.length` if there is none. -/
def scanFirst (A : Ty) : List Erased → Nat
  | [] => 0
  | e :: l => if tyOf e = A then 0 else scanFirst A l + 1

/-- A type_iterator scan starting at index `idx` (the constructor with offset
`idx`, or the rescan after `++index_`): the loop walks `s.drop idx`, so the
final index is `idx` plus the distance to the first match. -/
def findFrom (s : List Erased) (A : Ty) (idx : Nat) : Nat :=
  idx + scanFirst A (s.drop idx)

/-- The positions visited by the loop `for (ptr = begin; ptr != end; ++ptr)`
starting from a scan at `idx`: visit the index the scan stops at while it
differs from size(), then advance (`operator++` = step once and rescan).  The
fuel argument bounds the loop by the container size; the wrapper `iterFrom`
instantiates it with the exact remaining length. -/
def iterFromF (s : List Erased) (A : Ty) : Nat → Nat → List Nat
  | 0, _ => []
  | fuel + 1, idx =>
    if findFrom s A idx < s.length then
      findFrom s A idx :: iterFromF s A fuel (findFrom s A idx + 1)
    else []

/-- The visited positions of type-filtered iteration beginning with a scan at
`idx`; `iterFrom s A 0` is the full begin-to-end iteration. -/
def iterFrom (s : List Erased) (A : Ty) (idx : Nat) : List Nat :=
  iterFromF s A (s.length - idx) idx

/-- adaptor::size<A>(): count the iterations of the begin-to-end loop. -/
def sizeA (s : List Erased) (A : Ty) : Nat :=
  (iterFrom s A 0).length

/-- Outcome of an element access on the adaptor: the sequence index whose
payload is produced, a thrown std::out_of_range, or undefined behaviour (the
iterator index moved strictly past the end sentinel, after which the scan
loop dereferences out of bounds and can never equal end()). -/
inductive AccessOutcome where
  | found (i : Nat)
  | oor
  | undef
deriving DecidableEq, Repr

/-- adaptor::first<A>(): take begin<A>(); throw std::out_of_range if it equals
end<A>() (index = size), otherwise dereference. -/
def firstOut (s : List Erased) (A : Ty) : AccessOutcome :=
  if findFrom s A 0 = s.length then AccessOutcome.oor
  else AccessOutcome.found (findFrom s A 0)

/-- adaptor::last<A>(): take rbegin<A>() — the same scan over the reversed
sequence — and throw std::out_of_range if it equals rend<A>() (index = size);
otherwise dereference, reported as the absolute position in the sequence. -/
def lastOut (s : List Erased) (A : Ty) : AccessOutcome :=
  if findFrom s.reverse A 0 = s.length then AccessOutcome.oor
  else AccessOutcome.found (s.length - 1 - findFrom s.reverse A 0)

/-- The counting loop of type_iterator::operator+ after the initial
`++index_`: walk positions from `idx`, incrementing the match count at each
element holding `A` and stopping at the position where the count reaches
`rhs`; if the loop instead reaches end(), the index is size().  Fuel as in
`iterFromF`; the wrapper `plusWalk` instantiates it exactly. -/
def plusWalkF (s : List Erased) (A : Ty) (rhs : Nat) : Nat → Nat → Nat → Nat
  | 0, idx, _ => idx
  | fuel + 1, idx, n =>
    if isMatch s A idx then
      if n + 1 = rhs then idx else plusWalkF s A rhs fuel (idx + 1) (n + 1)
    else plusWalkF s A rhs fuel (idx + 1) n

def plusWalk (s : List Erased) (A : Ty) (rhs idx n : Nat) : Nat :=
  plusWalkF s A rhs (s.length - idx) idx n

/-- type_iterator::operator+(rhs) applied to an iterator at index `cur`:
with rhs = 0 the iterator is returned unchanged; otherwise `++index_` runs
first, and if that moves the index strictly past the end sentinel (possible
when `cur` is already end(), i.e. the begin of a type with no elements) the
subsequent loop compares `begin() + index_` against end() with an index that
only grows — it dereferences out of bounds and never terminates, which the
model records as none (undefined behaviour). -/
def plusIdx (s : List Erased) (A : Ty) (cur rhs : Nat) : Option Nat :=
  if rhs = 0 then some cur
  else if s.length < cur + 1 then none
  else some (plusWalk s A rhs (cur + 1) 0)

/-- adaptor::get<A>(i): form `begin<A>() + i`, throw std::out_of_range if the
result equals end<A>() (index = size), otherwise dereference. -/
def getOut (s : List Erased) (A : Ty) (i : Nat) : AccessOutcome :=
  match plusIdx s A (findFrom s A 0) i with
  | none => AccessOutcome.undef
  | some idx => if idx = s.length then AccessOutcome.oor else AccessOutcome.found idx

/-- adaptor::at<A>(i) (erased-reference overload): scan the whole sequence
with a match counter starting below zero, pre-incrementing at each element
holding `A` and returning that slot when the counter reaches `i`; falling off
the end throws std::out_of_range (modelled as none). -/
def atScanL (A : Ty) (i : Nat) : List Erased → Nat → Nat → Option Nat
  | [], _, _ => none
  | e :: l, pos, n =>
    if tyOf e = A then
      if n = i then some pos else atScanL A i l (pos + 1) (n + 1)
    else atScanL A i l (pos + 1) n

def atSlot (s : List Erased) (A : Ty) (i : Nat) : Option Nat :=
  atScanL A i s 0 0

/-- adaptor::swap<A, B>(i, j): return false without touching the sequence if
i >= size<A>() or j >= size<B>(); otherwise take references to the two slots
via at<A>(i) and at<B>(j), read both native values via get<A>(i) and
get<B>(j), then assign the B-value into the A-slot and the A-value into the
B-slot (re-erasing an extracted payload reproduces the erased value, so the
assignments copy the erased values across).  The fallback arms are
unreachable once the size guard has passed. -/
def swapAB (A B : Ty) (i j : Nat) (s : List Erased) : Bool × List Erased :=
  if sizeA s A ≤ i || sizeA s B ≤ j then (false, s)
  else
    match atSlot s A i, atSlot s B j, plusIdx s A (findFrom s A 0) i,
        plusIdx s B (findFrom s B 0) j with
    | some pA, some pB, some qA, some qB =>
      match s.get? qA, s.get? qB with
      | some vA, some vB => (true, (s.set pA vB).set pB vA)
      | _, _ => (false, s)
    | _, _, _, _ => (false, s)

/-- The spec scenario sequence [3.1415f, 3.141516, "a", 1986, "b", "c", 2004,
69.69, "d"] of types (float, double, string, int, string, string, int,
double, string); the two float/double literals are identified opaquely. -/
def demoSeq : List Erased :=
  [.efl 0, .edb 0, .estr "a", .eint 1986, .estr "b", .estr "c", .eint 2004,
   .edb 1, .estr "d"]

/-- The sequence demoSeq after exchanging the payloads at filtered-string indices 0 and 2
(sequence slots 2 and 5). -/
def demoSwapped : List Erased :=
  [.efl 0, .edb 0, .estr "c", .eint 1986, .estr "b", .estr "a", .eint 2004,
   .edb 1, .estr "d"]

/-! Helper lemmas about the type-filtered scans. -/

theorem scanFirst_le (A : Ty) : ∀ l : List Erased, scanFirst A l ≤ l.length := by
  intro l
  induction l with
  | nil => exact Nat.le_refl 0
  | cons e l ih =>
    by_cases hm : tyOf e = A
    · simp [scanFirst, hm]
    · simp only [scanFirst, if_neg hm, List.length_cons]
      omega

theorem scanFirst_eq_length_iff (A : Ty) :
    ∀ l : List Erased, scanFirst A l = l.length ↔ ∀ e ∈ l, ¬ tyOf e = A := by
  intro l
  induction l with
  | nil => simp [scanFirst]
  | cons e l ih =>
    by_cases hm : tyOf e = A
    · have hle := scanFirst_le A l
      simp only [scanFirst, if_pos hm, List.length_cons]
      constructor
      · intro h; omega
      · intro h; exact absurd hm (h e (List.mem_cons_self e l))
    · simp only [scanFirst, if_neg hm, List.length_cons, List.mem_cons]
      constructor
      · intro h q hq
        rcases hq with hq | hq
        · rw [hq]; exact hm
        · exact (ih.mp (by omega)) q hq
      · intro h
        have : scanFirst A l = l.length := ih.mpr (fun q hq => h q (Or.inr hq))
        omega

theorem findFrom_of_ge {s : List Erased} {A : Ty} {idx : Nat} (h : s.length ≤ idx) :
    findFrom s A idx = idx := by
  unfold findFrom
  rw [List.drop_eq_nil_of_le h]
  rfl

theorem findFrom_le {s : List Erased} {A : Ty} {idx : Nat} (h : idx ≤ s.length) :
    findFrom s A idx ≤ s.length := by
  unfold findFrom
  have := scanFirst_le A (s.drop idx)
  rw [List.length_drop] at this
  omega

theorem findFrom_ge (s : List Erased) (A : Ty) (idx : Nat) : idx ≤ findFrom s A idx :=
  Nat.le_add_right _ _

theorem isMatch_eq_of_lt {s : List Erased} {A : Ty} {idx : Nat} (h : idx < s.length) :
    isMatch s A idx = decide (tyOf (s.get ⟨idx, h⟩) = A) := by
  unfold isMatch
  rw [List.get?_eq_get h]

theorem findFrom_match {s : List Erased} {A : Ty} {idx : Nat} (h : idx < s.length)
    (hm : isMatch s A idx = true) : findFrom s A idx = idx := by
  have hty : tyOf (s.get ⟨idx, h⟩) = A := by
    have hh := @isMatch_eq_of_lt s A idx h
    rw [hm] at hh
    exact of_decide_eq_true hh.symm
  unfold findFrom
  rw [List.drop_eq_getElem_cons h]
  simp only [scanFirst]
  rw [if_pos (by simpa using hty)]
  omega

theorem findFrom_nomatch {s : List Erased} {A : Ty} {idx : Nat} (h : idx < s.length)
    (hm : isMatch s A idx = false) : findFrom s A idx = findFrom s A (idx + 1) := by
  have hty : ¬ tyOf (s.get ⟨idx, h⟩) = A := by
    intro hc
    have hh := @isMatch_eq_of_lt s A idx h
    rw [hm, hc] at hh
    simp at hh
  unfold findFrom
  rw [List.drop_eq_getElem_cons h]
  simp only [scanFirst]
  rw [if_neg (by simpa using hty)]
  omega

/-- Reference list of matching positions: the positions (offset by `base`) of
the elements of `l` holding type A, in order. -/
def posMap (A : Ty) : List Erased → Nat → List Nat
  | [], _ => []
  | e :: l, base =>
    if tyOf e = A then base :: posMap A l (base + 1) else posMap A l (base + 1)

theorem posMap_bounds (A : Ty) :
    ∀ (l : List Erased) (base q : Nat), q ∈ posMap A l base →
      base ≤ q ∧ q < base + l.length := by
  intro l
  induction l with
  | nil => intro base q hq; simp [posMap] at hq
  | cons e l ih =>
    intro base q hq
    by_cases hm : tyOf e = A
    · rw [posMap, if_pos hm] at hq
      simp only [List.mem_cons] at hq
      rcases hq with hq | hq
      · subst hq; simp only [List.length_cons]; omega
      · have := ih (base + 1) q hq
        simp only [List.length_cons]
        omega
    · rw [posMap, if_neg hm] at hq
      have := ih (base + 1) q hq
      simp only [List.length_cons]
      omega

theorem posMap_eq_nil_iff (A : Ty) :
    ∀ (l : List Erased) (base : Nat), posMap A l base = [] ↔ ∀ e ∈ l, ¬ tyOf e = A := by
  intro l
  induction l with
  | nil => intro base; simp [posMap]
  | cons e l ih =>
    intro base
    by_cases hm : tyOf e = A
    · rw [posMap, if_pos hm]
      simp only [List.mem_cons]
      constructor
      · intro h; exact absurd h (by simp)
      · intro h; exact absurd hm (h e (Or.inl rfl))
    · rw [posMap, if_neg hm]
      rw [ih (base + 1)]
      simp only [List.mem_cons]
      constructor
      · intro h q hq
        rcases hq with hq | hq
        · rw [hq]; exact hm
        · exact h q hq
      · intro h q hq; exact h q (Or.inr hq)

theorem posMap_shift (A : Ty) :
    ∀ (l : List Erased) (b : Nat), posMap A l (b + 1) = (posMap A l b).map (· + 1) := by
  intro l
  induction l with
  | nil => intro b; rfl
  | cons e l ih =>
    intro b
    by_cases hm : tyOf e = A <;> simp [posMap, hm, ih (b + 1), ih b]

theorem iterFromF_of_ge {s : List Erased} {A : Ty} {idx : Nat} (hge : s.length ≤ idx) :
    ∀ f : Nat, iterFromF s A f idx = [] := by
  intro f
  cases f with
  | zero => rfl
  | succ f =>
    simp only [iterFromF, findFrom_of_ge hge]
    rw [if_neg (Nat.not_lt.mpr hge)]

theorem iterFromF_eq (s : List Erased) (A : Ty) :
    ∀ (k f idx : Nat), s.length - idx ≤ k → s.length - idx ≤ f →
      iterFromF s A f idx = posMap A (s.drop idx) idx := by
  intro k
  induction k with
  | zero =>
    intro f idx hk _
    have hge : s.length ≤ idx := by omega
    rw [List.drop_eq_nil_of_le hge, iterFromF_of_ge hge]
    rfl
  | succ k ih =>
    intro f idx hk hf
    by_cases hlt : idx < s.length
    · obtain ⟨f', rfl⟩ : ∃ f', f = f' + 1 := ⟨f - 1, by omega⟩
      rw [List.drop_eq_getElem_cons hlt]
      by_cases hm : isMatch s A idx = true
      · have hty : tyOf (s[idx]) = A := by
          have hh := @isMatch_eq_of_lt s A idx hlt
          rw [hm] at hh
          simpa using of_decide_eq_true hh.symm
        have hfi : findFrom s A idx = idx := findFrom_match hlt hm
        simp only [iterFromF, hfi, if_pos hlt, posMap, if_pos hty]
        rw [ih f' (idx + 1) (by omega) (by omega)]
      · have hm' : isMatch s A idx = false := by simpa using hm
        have hty : ¬ tyOf (s[idx]) = A := by
          intro hc
          have hh := @isMatch_eq_of_lt s A idx hlt
          rw [hm'] at hh
          simp [hc] at hh
        have hfi : findFrom s A idx = findFrom s A (idx + 1) :=
          findFrom_nomatch hlt hm'
        have hstep : iterFromF s A (f' + 1) idx = iterFromF s A (f' + 1) (idx + 1) := by
          show (if findFrom s A idx < s.length then
              findFrom s A idx :: iterFromF s A f' (findFrom s A idx + 1) else []) =
            (if findFrom s A (idx + 1) < s.length then
              findFrom s A (idx + 1) :: iterFromF s A f' (findFrom s A (idx + 1) + 1) else [])
          rw [hfi]
        rw [hstep, ih (f' + 1) (idx + 1) (by omega) (by omega)]
        simp only [posMap, if_neg hty]
    · have hge : s.length ≤ idx := by omega
      rw [List.drop_eq_nil_of_le hge, iterFromF_of_ge hge]
      rfl

theorem iterFrom_eq_posMap (s : List Erased) (A : Ty) (idx : Nat) :
    iterFrom s A idx = posMap A (s.drop idx) idx :=
  iterFromF_eq s A (s.length - idx) (s.length - idx) idx (Nat.le_refl _) (Nat.le_refl _)

theorem iterFrom_unfold (s : List Erased) (A : Ty) (idx : Nat) :
    iterFrom s A idx =
      if findFrom s A idx < s.length then
        findFrom s A idx :: iterFrom s A (findFrom s A idx + 1)
      else [] := by
  by_cases hge : s.length ≤ idx
  · rw [findFrom_of_ge hge, if_neg (Nat.not_lt.mpr hge)]
    unfold iterFrom
    exact iterFromF_of_ge hge _
  · have hlt : idx < s.length := by omega
    obtain ⟨m, hm⟩ : ∃ m, s.length - idx = m + 1 := ⟨s.length - idx - 1, by omega⟩
    unfold iterFrom
    rw [hm]
    show (if findFrom s A idx < s.length then
        findFrom s A idx :: iterFromF s A m (findFrom s A idx + 1) else []) = _
    by_cases hp : findFrom s A idx < s.length
    · rw [if_pos hp, if_pos hp]
      have hgi := findFrom_ge s A idx
      rw [iterFromF_eq s A m m (findFrom s A idx + 1) (by omega) (by omega),
        iterFromF_eq s A (s.length - (findFrom s A idx + 1))
          (s.length - (findFrom s A idx + 1)) (findFrom s A idx + 1)
          (Nat.le_refl _) (Nat.le_refl _)]
    · rw [if_neg hp, if_neg hp]

theorem posMap_zero_eq_filter (A : Ty) :
    ∀ s : List Erased, posMap A s 0 = (List.range s.length).filter (fun i => isMatch s A i) := by
  intro s
  induction s with
  | nil => rfl
  | cons e l ih =>
    have hcomp : ((fun i => isMatch (e :: l) A i) ∘ Nat.succ) = (fun i => isMatch l A i) := rfl
    rw [List.length_cons, List.range_succ_eq_map, List.filter_cons, List.filter_map, hcomp, ← ih]
    by_cases hm : tyOf e = A
    · have h0 : isMatch (e :: l) A 0 = true := by
        unfold isMatch
        simpa using hm
      simp only [posMap, if_pos hm, h0, if_pos rfl]
      rw [posMap_shift]
      simp [Nat.succ_eq_add_one]
    · have h0 : isMatch (e :: l) A 0 = false := by
        unfold isMatch
        simpa using hm
      simp only [posMap, if_neg hm, h0]
      rw [posMap_shift]
      simp [Nat.succ_eq_add_one]

theorem iterFrom_mem_lt (s : List Erased) (A : Ty) (idx : Nat) :
    ∀ q ∈ iterFrom s A idx, q < s.length := by
  intro q hq
  rw [iterFrom_eq_posMap] at hq
  by_cases hge : s.length ≤ idx
  · rw [List.drop_eq_nil_of_le hge] at hq
    simp [posMap] at hq
  · have := posMap_bounds A (s.drop idx) idx q hq
    rw [List.length_drop] at this
    omega

theorem sizeA_eq_zero_iff (s : List Erased) (A : Ty) :
    sizeA s A = 0 ↔ findFrom s A 0 = s.length := by
  unfold sizeA
  rw [iterFrom_eq_posMap, List.drop_zero]
  unfold findFrom
  rw [List.drop_zero, Nat.zero_add]
  rw [List.length_eq_zero, posMap_eq_nil_iff, ← scanFirst_eq_length_iff]

theorem findFrom_reverse_iff (s : List Erased) (A : Ty) :
    findFrom s.reverse A 0 = s.length ↔ findFrom s A 0 = s.length := by
  unfold findFrom
  rw [List.drop_zero, List.drop_zero, Nat.zero_add, Nat.zero_add]
  constructor
  · intro h
    rw [scanFirst_eq_length_iff]
    intro e he
    have := (scanFirst_eq_length_iff A s.reverse).mp (by rw [h, List.length_reverse])
    exact this e (List.mem_reverse.mpr he)
  · intro h
    have hall := (scanFirst_eq_length_iff A s).mp h
    have : scanFirst A s.reverse = s.reverse.length :=
      (scanFirst_eq_length_iff A s.reverse).mpr
        (fun e he => hall e (List.mem_reverse.mp he))
    rw [this, List.length_reverse]

theorem plusWalkF_eq (s : List Erased) (A : Ty) (rhs : Nat) :
    ∀ (f idx n : Nat), f = s.length - idx → idx ≤ s.length → n < rhs →
      plusWalkF s A rhs f idx n =
        ((iterFrom s A idx).get? (rhs - n - 1)).getD s.length := by
  intro f
  induction f with
  | zero =>
    intro idx n hf hle _
    have hidx : idx = s.length := by omega
    subst hidx
    have hnil : iterFrom s A s.length = [] := by
      unfold iterFrom
      rw [Nat.sub_self]
      rfl
    rw [hnil]
    rfl
  | succ f ih =>
    intro idx n hf hle hn
    have hlt : idx < s.length := by omega
    show (if isMatch s A idx then
        if n + 1 = rhs then idx else plusWalkF s A rhs f (idx + 1) (n + 1)
      else plusWalkF s A rhs f (idx + 1) n) = _
    by_cases hm : isMatch s A idx = true
    · rw [if_pos hm]
      have hfi : findFrom s A idx = idx := findFrom_match hlt hm
      have hIter : iterFrom s A idx = idx :: iterFrom s A (idx + 1) := by
        rw [iterFrom_unfold s A idx, hfi, if_pos hlt]
      by_cases hr : n + 1 = rhs
      · rw [if_pos hr, hIter]
        have hz : rhs - n - 1 = 0 := by omega
        rw [hz, List.get?_cons_zero]
        rfl
      · rw [if_neg hr, hIter]
        have hsub : rhs - n - 1 = (rhs - (n + 1) - 1) + 1 := by omega
        rw [hsub, List.get?_cons_succ]
        exact ih (idx + 1) (n + 1) (by omega) (by omega) (by omega)
    · have hm' : isMatch s A idx = false := by simpa using hm
      rw [if_neg hm]
      have hfi : findFrom s A idx = findFrom s A (idx + 1) :=
        findFrom_nomatch hlt hm'
      have hIter : iterFrom s A idx = iterFrom s A (idx + 1) := by
        rw [iterFrom_unfold s A idx, hfi, ← iterFrom_unfold s A (idx + 1)]
      rw [hIter]
      exact ih (idx + 1) n (by omega) (by omega) hn

theorem getOut_oor_iff (s : List Erased) (A : Ty) (i : Nat) :
    getOut s A i = AccessOutcome.oor ↔ (sizeA s A ≤ i ∧ (0 < sizeA s A ∨ i = 0)) := by
  unfold getOut plusIdx
  by_cases hi : i = 0
  · subst hi
    rw [if_pos rfl]
    by_cases hb : findFrom s A 0 = s.length
    · simp [hb, (sizeA_eq_zero_iff s A).mpr hb]
    · have : sizeA s A ≠ 0 := fun h => hb ((sizeA_eq_zero_iff s A).mp h)
      simp [hb]
      omega
  · rw [if_neg hi]
    by_cases hc : sizeA s A = 0
    · have hb : findFrom s A 0 = s.length := (sizeA_eq_zero_iff s A).mp hc
      rw [hb, if_pos (by omega)]
      simp [hc, hi]
    · have hb : findFrom s A 0 ≠ s.length := fun h => hc ((sizeA_eq_zero_iff s A).mpr h)
      have hblt : findFrom s A 0 < s.length :=
        Nat.lt_of_le_of_ne (findFrom_le (Nat.zero_le _)) hb
      rw [if_neg (by omega)]
      have hIter : iterFrom s A 0 = findFrom s A 0 :: iterFrom s A (findFrom s A 0 + 1) := by
        rw [iterFrom_unfold s A 0, if_pos hblt]
      have hcnt : sizeA s A = (iterFrom s A (findFrom s A 0 + 1)).length + 1 := by
        unfold sizeA
        rw [hIter, List.length_cons]
      have hw : plusWalk s A i (findFrom s A 0 + 1) 0 =
          ((iterFrom s A (findFrom s A 0 + 1)).get? (i - 1)).getD s.length := by
        unfold plusWalk
        have := plusWalkF_eq s A i (s.length - (findFrom s A 0 + 1))
          (findFrom s A 0 + 1) 0 rfl (by omega) (by omega)
        simpa using this
      rw [hw]
      cases hgi : (iterFrom s A (findFrom s A 0 + 1)).get? (i - 1) with
      | none =>
        rw [List.get?_eq_none] at hgi
        simp only [Option.getD_none, if_pos rfl]
        constructor
        · intro _
          constructor
          · omega
          · left; omega
        · intro _; rfl
      | some q =>
        have hqlt : q < s.length :=
          iterFrom_mem_lt s A (findFrom s A 0 + 1) q (List.get?_mem hgi)
        have hilen : i - 1 < (iterFrom s A (findFrom s A 0 + 1)).length := by
          by_contra hcon
          have hnone : (iterFrom s A (findFrom s A 0 + 1)).get? (i - 1) = none :=
            List.get?_eq_none.mpr (by omega)
          rw [hnone] at hgi
          exact absurd hgi (by simp)
        simp only [Option.getD_some, if_neg (by omega : ¬ q = s.length)]
        constructor
        · intro h; exact absurd h (by simp)
        · intro h
          omega

theorem getOut_undef_iff (s : List Erased) (A : Ty) (i : Nat) :
    getOut s A i = AccessOutcome.undef ↔ (sizeA s A = 0 ∧ 1 ≤ i) := by
  unfold getOut plusIdx
  by_cases hi : i = 0
  · subst hi
    rw [if_pos rfl]
    by_cases hb : findFrom s A 0 = s.length <;> simp [hb]
  · rw [if_neg hi]
    by_cases hc : sizeA s A = 0
    · have hb : findFrom s A 0 = s.length := (sizeA_eq_zero_iff s A).mp hc
      rw [hb, if_pos (by omega)]
      simp [hc]
      omega
    · have hb : findFrom s A 0 ≠ s.length := fun h => hc ((sizeA_eq_zero_iff s A).mpr h)
      have hblt : findFrom s A 0 < s.length :=
        Nat.lt_of_le_of_ne (findFrom_le (Nat.zero_le _)) hb
      rw [if_neg (by omega)]
      by_cases hw : plusWalk s A i (findFrom s A 0 + 1) 0 = s.length <;>
        simp [hw, hc]

theorem firstOut_oor_iff (s : List Erased) (A : Ty) :
    firstOut s A = AccessOutcome.oor ↔ sizeA s A = 0 := by
  unfold firstOut
  by_cases hb : findFrom s A 0 = s.length <;>
    simp [hb, sizeA_eq_zero_iff]

theorem lastOut_oor_iff (s : List Erased) (A : Ty) :
    lastOut s A = AccessOutcome.oor ↔ sizeA s A = 0 := by
  unfold lastOut
  by_cases hb : findFrom s.reverse A 0 = s.length
  · rw [if_pos hb]
    simp [sizeA_eq_zero_iff, ← findFrom_reverse_iff, hb]
  · rw [if_neg hb]
    simp only [sizeA_eq_zero_iff, ← findFrom_reverse_iff]
    constructor
    · intro h; exact absurd h (by simp)
    · intro h; exact absurd h hb

/-! Claims about the adaptor. -/

/-- C7: the type-filtered iteration from begin<A>() to end<A>() visits, in
sequence order, exactly the positions whose erased payload currently holds A
and no others; on the spec scenario sequence the string iteration
dereferences to "a", "b", "c", "d" in that order. -/
theorem c7_type_iteration_filters :
    (∀ (s : List Erased) (A : Ty),
      iterFrom s A 0 = (List.range s.length).filter (fun i => isMatch s A i)) ∧
    (iterFrom demoSeq Ty.tstring 0).map (derefString demoSeq) =
      [some "a", some "b", some "c", some "d"] := by
  constructor
  · intro s A
    rw [iterFrom_eq_posMap, List.drop_zero]
    exact posMap_zero_eq_filter A s
  · decide

/-- C8: on the spec scenario sequence, swap<string, string>(0, 2) exchanges
the payloads at the slots of filtered-string indices 0 and 2 (sequence slots
2 and 5), leaves every other slot unchanged, and applying the same swap again
restores the original sequence. -/
theorem c8_swap_strings_involutive :
    swapAB Ty.tstring Ty.tstring 0 2 demoSeq = (true, demoSwapped) ∧
    swapAB Ty.tstring Ty.tstring 0 2 demoSwapped = (true, demoSeq) :=
  ⟨by decide, by decide⟩

/-- C9 counterexample: on a sequence with no string-typed element,
get<string>(1) has 1 >= size<string>() = 0 but does NOT throw
std::out_of_range — `begin<string>() + 1` pushes the iterator index past the
end sentinel, after which the scan loop reads out of bounds and can never
compare equal to end() (undefined behaviour), refuting the claimed
"throws iff i >= count". -/
theorem c9_get_oob_is_undefined_cex :
    sizeA [Erased.eint 1] Ty.tstring ≤ 1 ∧
    getOut [Erased.eint 1] Ty.tstring 1 ≠ AccessOutcome.oor ∧
    getOut [Erased.eint 1] Ty.tstring 1 = AccessOutcome.undef :=
  ⟨by decide, by decide, by decide⟩

/-- C9 amended: first<A>() and last<A>() throw std::out_of_range exactly when
the sequence holds no A-typed element (and never reach the undefined path);
get<A>(i) throws std::out_of_range exactly when i >= size<A>() AND
(size<A>() > 0 or i = 0); in the remaining case (no A-typed element and
i >= 1) the iterator walks past the end sentinel — undefined behaviour, not
an out_of_range throw.  These outcomes are a distinct failure kind from the
heterovector dispatch's std::invalid_argument (modelled separately as the
`none` of the walk). -/
theorem c9_first_last_get_outcomes (s : List Erased) (A : Ty) (i : Nat) :
    (firstOut s A = AccessOutcome.oor ↔ sizeA s A = 0) ∧
    (lastOut s A = AccessOutcome.oor ↔ sizeA s A = 0) ∧
    (getOut s A i = AccessOutcome.oor ↔ (sizeA s A ≤ i ∧ (0 < sizeA s A ∨ i = 0))) ∧
    (getOut s A i = AccessOutcome.undef ↔ (sizeA s A = 0 ∧ 1 ≤ i)) ∧
    firstOut s A ≠ AccessOutcome.undef ∧ lastOut s A ≠ AccessOutcome.undef := by
  refine ⟨firstOut_oor_iff s A, lastOut_oor_iff s A, getOut_oor_iff s A i,
    getOut_undef_iff s A i, ?_, ?_⟩
  · unfold firstOut
    by_cases hb : findFrom s A 0 = s.length <;> simp [hb]
  · unfold lastOut
    by_cases hb : findFrom s.reverse A 0 = s.length <;> simp [hb]

theorem c9_first_last_get_outcomes_witness :
    (firstOut demoSeq Ty.tstring = AccessOutcome.oor ↔ sizeA demoSeq Ty.tstring = 0) ∧
    (lastOut demoSeq Ty.tstring = AccessOutcome.oor ↔ sizeA demoSeq Ty.tstring = 0) ∧
    (getOut demoSeq Ty.tstring 4 = AccessOutcome.oor ↔
      (sizeA demoSeq Ty.tstring ≤ 4 ∧ (0 < sizeA demoSeq Ty.tstring ∨ 4 = 0))) ∧
    (getOut demoSeq Ty.tstring 4 = AccessOutcome.undef ↔
      (sizeA demoSeq Ty.tstring = 0 ∧ 1 ≤ 4)) ∧
    firstOut demoSeq Ty.tstring ≠ AccessOutcome.undef ∧
    lastOut demoSeq Ty.tstring ≠ AccessOutcome.undef :=
  c9_first_last_get_outcomes demoSeq Ty.tstring 4

theorem c10_size_counts_nodes_witness :
    hvSize (fresh Unit [Ty.tint, Ty.tint]) =
      (fresh Unit [Ty.tint, Ty.tint] : heterovector Ty Unit).types.length :=
  c10_size_counts_nodes Ty Unit (fresh Unit [Ty.tint, Ty.tint])

end HCL
